import Mathlib

/-!
# Verification of the Wechat2Pdf image acquisition and smart-filtering pipeline

Shallow embedding of `src/backend/main.py`: the `SmartFilter` decision
cascade (`is_valid_exam_paper`), URL canonicalization
(`ArticleProcessor.normalize_image_url`), and the bounded download pipeline
(`download_single_image` / `download_images`).

External library calls (OpenCV QR detection, EAST inference, HTTP, PIL
decoding) are modelled as oracle inputs: each image comes with the outcome
the library call would produce (QR detection result, text-box count after
NMS, edge density, HTTP response data, decode outcome).  The control flow of
the Python functions over those outcomes is embedded faithfully.
-/

namespace Wechat2Pdf

/-! ## Constants (main.py lines 43-46) -/

def MIN_IMAGE_DIMENSION : ℕ := 300

def MAX_IMAGE_SIZE_BYTES : ℕ := 10 * 1024 * 1024

def MAX_CONCURRENT_DOWNLOADS : ℕ := 10

/-! ## SmartFilter.is_valid_exam_paper (main.py lines 100-240)

The QR-detection block (lines 121-179) calls OpenCV's `QRCodeDetector`.
Its outcome is modelled by `QRDetection`:
`decodedNonempty` is whether any of the three `detectAndDecode` passes
returned a non-empty payload, `pointsPresent` whether `points is not None`
at that moment, `ratio` the value `contourArea(pts) / (w*h)`,
`fallbackDetected` whether the pattern-only `detector.detect(gray)` pass
returned `ok` with points, `fallbackRatio` its area ratio, and `error`
whether an exception was raised inside the `try` block (in which case the
`except` handler clears `has_prominent_qr` and `qr_reason`). -/

structure QRDetection where
  error : Bool
  decodedNonempty : Bool
  pointsPresent : Bool
  ratio : ℚ
  fallbackDetected : Bool
  fallbackRatio : ℚ
deriving DecidableEq, Repr

/-- The reason strings returned by `is_valid_exam_paper`, as tags carrying
the interpolated values. -/
inductive QrReason where
  | scannable (ratio : ℚ)
  | suspected (ratio : ℚ)
deriving DecidableEq, Repr

inductive Reason where
  | tooSmall (w h : ℕ)
  | hugeQR (ratio : ℚ)
  | modelUnavailable
  | highTextDensity (n : ℕ)
  | qrWithLowText (qr : QrReason) (n : ℕ)
  | cardOrQRShaped (n : ℕ) (ar : ℚ)
  | adequateText (n : ℕ)
  | sparseTextWithLines (n : ℕ) (d : ℚ)
  | lineRichNoText (d : ℚ)
  | degenerateStrip
  | tooSparse (n : ℕ) (d : ℚ)
deriving DecidableEq, Repr

/-- Outcome of the QR block (lines 121-179): either the early `return` on a
huge decoded QR (line 151-152), or fall-through with the pair
`(has_prominent_qr, qr_reason)`. -/
inductive QrStage where
  | hugeQR (ratio : ℚ)
  | proceed (hasProminent : Bool) (reason : Option QrReason)
deriving DecidableEq, Repr

def qrStage (qr : QRDetection) : QrStage :=
  if qr.error then .proceed false none
  else if qr.pointsPresent ∧ qr.decodedNonempty then
    if qr.ratio > 40/100 then .hugeQR qr.ratio
    else if qr.ratio > 5/100 then .proceed true (some (.scannable qr.ratio))
    else .proceed false none
  else if ¬ qr.decodedNonempty then
    if qr.fallbackDetected ∧ qr.fallbackRatio > 20/100 then
      .proceed true (some (.suspected qr.fallbackRatio))
    else .proceed false none
  else .proceed false none

/-- `max(w, h) / min(w, h) if min(w, h) > 0 else 1.0` (line 206). -/
def aspectRatio (w h : ℕ) : ℚ :=
  if 0 < min w h then (max w h : ℚ) / (min w h : ℚ) else 1

/-- Embedding of `SmartFilter.is_valid_exam_paper` (lines 100-240).
`netLoaded` is whether `SmartFilter._net` is non-`None` after the
`load_model()` call on line 183; `numTextBoxes` is `len(indices)` after
EAST decode + NMS (line 203); `edgeDensity` is the Canny edge density
(line 228).  Returns the `(bool, reason)` pair. -/
def is_valid_exam_paper (w h : ℕ) (qr : QRDetection) (netLoaded : Bool)
    (numTextBoxes : ℕ) (edgeDensity : ℚ) : Bool × Reason :=
  if w < MIN_IMAGE_DIMENSION ∨ h < MIN_IMAGE_DIMENSION then
    (false, .tooSmall w h)
  else
    match qrStage qr with
    | .hugeQR r => (false, .hugeQR r)
    | .proceed hasProminent qrReason =>
      if netLoaded = false then (true, .modelUnavailable)
      else
        let ar := aspectRatio w h
        if numTextBoxes ≥ 8 then (true, .highTextDensity numTextBoxes)
        else if hasProminent then
          (false, .qrWithLowText (qrReason.getD (.scannable 0)) numTextBoxes)
        else if 4 ≤ numTextBoxes ∧ numTextBoxes < 8 then
          if ar < 13/10 then (false, .cardOrQRShaped numTextBoxes ar)
          else (true, .adequateText numTextBoxes)
        else
          let afterEdge : Bool × Reason :=
            if ar > 4 then (false, .degenerateStrip)
            else (false, .tooSparse numTextBoxes edgeDensity)
          if 0 < numTextBoxes then
            if edgeDensity > 1/100 then
              (true, .sparseTextWithLines numTextBoxes edgeDensity)
            else afterEdge
          else
            if edgeDensity > 5/100 then (true, .lineRichNoText edgeDensity)
            else afterEdge

/-- The condition under which the QR block returns early with the huge-QR
verdict: no exception, `points is not None`, a decoded payload, and area
ratio strictly above 0.40. -/
def isDominantQR (qr : QRDetection) : Bool :=
  !qr.error && qr.pointsPresent && qr.decodedNonempty
    && decide (qr.ratio > 40/100)

/-- Whether the QR block falls through with `has_prominent_qr = True`. -/
def hasProminentQR (qr : QRDetection) : Bool :=
  match qrStage qr with
  | .hugeQR _ => false
  | .proceed hp _ => hp

/-! ## ArticleProcessor.normalize_image_url (main.py lines 300-318)

`re.search(r"(https://mmbiz\.qpic\.cn/[^?]+)", url)` scans the string left
to right for the literal `https://mmbiz.qpic.cn/` followed by at least one
non-`?` character and captures greedily up to the first `?`.  The captured
base is then `rsplit`-split at its last `/`; if the final segment is purely
numeric it is rewritten to `0`, otherwise the original URL is returned
unchanged. -/

def mmbizLit : List Char := "https://mmbiz.qpic.cn/".data

/-- The character class `[^?]` of the regex. -/
def notQmark (c : Char) : Bool := c ≠ '?'

/-- Not the path separator — used for the `rsplit("/", 1)` split. -/
def notSlash (c : Char) : Bool := c ≠ '/'

/-- The regex body `https://mmbiz\.qpic\.cn/[^?]+` matched at the head of
`s`: the literal must be a prefix and the greedy `[^?]+` run nonempty. -/
def capAt (s : List Char) : Option (List Char) :=
  if mmbizLit.isPrefixOf s then
    if (s.drop mmbizLit.length).takeWhile notQmark = [] then none
    else some (mmbizLit ++ (s.drop mmbizLit.length).takeWhile notQmark)
  else none

/-- `re.search`: try the match at each position, leftmost first. -/
def findCapture : List Char → Option (List Char)
  | [] => none
  | c :: rest =>
    match capAt (c :: rest) with
    | some cap => some cap
    | none => findCapture rest

/-- The part of `base` after its last `/` (`base.rsplit("/", 1)[1]`). -/
def lastSeg (s : List Char) : List Char :=
  (s.reverse.takeWhile notSlash).reverse

/-- The part of `base` before its last `/` (`base.rsplit("/", 1)[0]`). -/
def beforeLastSlash (s : List Char) : List Char :=
  ((s.reverse.dropWhile notSlash).drop 1).reverse

/-- Python `str.isdigit` restricted to ASCII digits: nonempty and all
digits. -/
def pyIsdigit (s : List Char) : Bool := !s.isEmpty && s.all Char.isDigit

def normalizeList (s : List Char) : List Char :=
  match findCapture s with
  | none => s
  | some base =>
    if base.elem '/' then
      if pyIsdigit (lastSeg base) then beforeLastSlash base ++ ['/', '0']
      else s
    else s

def normalize_image_url (s : String) : String := ⟨normalizeList s.data⟩

/-! ## ArticleProcessor.download_single_image (main.py lines 375-445)

HTTP and PIL are modelled by a `FetchResponse` oracle: `statusOk` is
whether `raise_for_status()` passes, `isHtmlOrSvg` whether the
`Content-Type` header contains `text/html` or `image/svg`, `contentLength`
the parsed `Content-Length` header (absent for a missing or empty header),
`chunks` the byte counts of the chunks `aiter_bytes()` would yield, and
`decode` what `Image.open(...).load()` does on the accumulated bytes
(decompression bomb, failure, or an image whose post-RGB-conversion size is
`w × h`).  The embedding additionally returns how many chunks of the body
were consumed, to state the streaming size-gate claims. -/

inductive DecodeResult where
  | bomb
  | invalid
  | ok (w h : ℕ)
deriving DecidableEq, Repr

structure FetchResponse where
  statusOk : Bool
  isHtmlOrSvg : Bool
  contentLength : Option ℕ
  chunks : List ℕ
  decode : DecodeResult
deriving DecidableEq, Repr

/-- A successfully fetched candidate: `(img, img_size, url)` with the
image abstracted to its dimensions. -/
structure Candidate where
  w : ℕ
  h : ℕ
  size : ℕ
  url : String
deriving DecidableEq, Repr

/-- The streaming loop on lines 412-417: extend the buffer chunk by chunk
and abort as soon as it exceeds the cap.  Returns the final accumulated
size (`none` on abort) and the number of chunks consumed. -/
def accumulateChunks (cap : ℕ) : List ℕ → ℕ → Option ℕ × ℕ
  | [], acc => (some acc, 0)
  | c :: rest, acc =>
    if acc + c > cap then (none, 1)
    else
      let r := accumulateChunks cap rest (acc + c)
      (r.1, r.2 + 1)

/-- Whether the `Content-Length` check on line 407 rejects:
`content_length and int(content_length) > MAX_IMAGE_SIZE_BYTES`. -/
def declaredTooLarge (cl : Option ℕ) : Bool :=
  match cl with
  | none => false
  | some l => decide (l > MAX_IMAGE_SIZE_BYTES)

/-- Embedding of `download_single_image`: the result (`none` on any
rejection or failure) paired with the number of body chunks consumed. -/
def download_single_image (url : String) (r : FetchResponse) :
    Option Candidate × ℕ :=
  if ¬ r.statusOk then (none, 0)
  else if r.isHtmlOrSvg then (none, 0)
  else if declaredTooLarge r.contentLength then (none, 0)
  else
    match accumulateChunks MAX_IMAGE_SIZE_BYTES r.chunks 0 with
    | (none, n) => (none, n)
    | (some sz, n) =>
      match r.decode with
      | .bomb => (none, n)
      | .invalid => (none, n)
      | .ok w h =>
        if w < MIN_IMAGE_DIMENSION ∨ h < MIN_IMAGE_DIMENSION then (none, n)
        else (some ⟨w, h, sz, url⟩, n)

/-! ## ArticleProcessor.download_images (main.py lines 447-507)

Per-URL environment: the URL, its HTTP response, and the classifier
oracle values (QR outcome, EAST text-box count, Canny edge density) for
the downloaded image.  `asyncio.gather` returns results in task order, so
the candidate list is the order-preserving collection of non-`None`
results. -/

structure ImageEnv where
  url : String
  resp : FetchResponse
  qr : QRDetection
  numTextBoxes : ℕ
  edgeDensity : ℚ
deriving DecidableEq

/-- The keep decision applied to one candidate in the filtering loop
(lines 489-499). -/
def keptByFilter (netLoaded : Bool) (c : Candidate) (e : ImageEnv) : Bool :=
  (is_valid_exam_paper c.w c.h e.qr netLoaded e.numTextBoxes e.edgeDensity).1

/-- The candidate list built from `asyncio.gather`'s results (lines
471-475): the non-`None` download results, in input order, paired here
with their environment for the later classification loop. -/
def fetchCandidates (envs : List ImageEnv) : List (Candidate × ImageEnv) :=
  envs.filterMap fun e =>
    ((download_single_image e.url e.resp).1).map fun c => (c, e)

/-- Embedding of `download_images`: fetch every URL (collecting successes
in input order), return `[]` if none survived, bypass filtering when
`no_filter`, otherwise keep the candidates the classifier accepts. -/
def download_images (envs : List ImageEnv) (netLoaded : Bool)
    (no_filter : Bool) : List Candidate :=
  if (fetchCandidates envs).isEmpty then []
  else if no_filter then (fetchCandidates envs).map (·.1)
  else ((fetchCandidates envs).filter
    fun ce => keptByFilter netLoaded ce.1 ce.2).map (·.1)

/-- The specification's description of the result (§4.1, §8 End-to-end):
exactly the items that fetched, decoded, and — unless `no_filter` — passed
the classifier, in input order. -/
def downloadImagesSpec (envs : List ImageEnv) (netLoaded : Bool)
    (no_filter : Bool) : List Candidate :=
  envs.filterMap fun e =>
    match (download_single_image e.url e.resp).1 with
    | none => none
    | some c => if no_filter || keptByFilter netLoaded c e then some c else none

/-- Concrete QR detection outcomes used in witnesses and counterexamples:
a decoded QR covering half the image, and no QR at all. -/
def bigQR : QRDetection := ⟨false, true, true, 1/2, false, 0⟩

def noQR : QRDetection := ⟨false, false, false, 0, false, 0⟩

/-!
# Theorems
-/

/-- A QR detection outcome that is not dominant lets the QR block fall
through to the rest of the classifier. -/
lemma qrStage_proceed_of_not_dominant (qr : QRDetection)
    (h : isDominantQR qr = false) :
    ∃ hp r, qrStage qr = QrStage.proceed hp r := by
  unfold qrStage
  by_cases he : qr.error = true
  · rw [if_pos he]; exact ⟨_, _, rfl⟩
  · rw [if_neg he]
    by_cases hpd : qr.pointsPresent = true ∧ qr.decodedNonempty = true
    · rw [if_pos hpd]
      have hr : ¬ (qr.ratio > 40/100) := by
        intro hgt
        have hb : isDominantQR qr = true := by
          unfold isDominantQR
          have he' : qr.error = false := by
            cases hqe : qr.error
            · rfl
            · exact absurd hqe he
          simp [he', hpd.1, hpd.2, hgt]
        rw [h] at hb
        exact Bool.false_ne_true hb
      rw [if_neg hr]
      split
      · exact ⟨_, _, rfl⟩
      · exact ⟨_, _, rfl⟩
    · rw [if_neg hpd]
      split
      · split
        · exact ⟨_, _, rfl⟩
        · exact ⟨_, _, rfl⟩
      · exact ⟨_, _, rfl⟩

/-- With neither a dominant nor a prominent QR, the block falls through
with `has_prominent_qr = False`. -/
lemma qrStage_proceed_false (qr : QRDetection)
    (h1 : isDominantQR qr = false) (h2 : hasProminentQR qr = false) :
    ∃ r, qrStage qr = QrStage.proceed false r := by
  obtain ⟨hp, r, hqr⟩ := qrStage_proceed_of_not_dominant qr h1
  unfold hasProminentQR at h2
  rw [hqr] at h2
  exact ⟨r, h2 ▸ hqr⟩

/-- Passing the minimum-dimension gate, stated as the negation of the
guard on line 115. -/
lemma dim_gate_pass (w h : ℕ) (hw : MIN_IMAGE_DIMENSION ≤ w)
    (hh : MIN_IMAGE_DIMENSION ≤ h) :
    ¬ (w < MIN_IMAGE_DIMENSION ∨ h < MIN_IMAGE_DIMENSION) :=
  not_or.mpr ⟨Nat.not_lt.mpr hw, Nat.not_lt.mpr hh⟩

/-- C1 (counterexample): with the model artifact absent, a 400×400 image
(passing the minimum-dimension gate) containing a decoded QR of area ratio
1/2 is discarded by the early huge-QR return, not kept with reason "model
unavailable" — refuting the claim that every dimension-gate-passing image
is kept regardless of any QR code it contains. -/
theorem modelAbsent_keep_claim_counterexample :
    MIN_IMAGE_DIMENSION ≤ 400 ∧
    is_valid_exam_paper 400 400 bigQR false 0 0 = (false, .hugeQR (1/2)) := by
  refine ⟨by norm_num [MIN_IMAGE_DIMENSION], ?_⟩
  norm_num [is_valid_exam_paper, qrStage, bigQR, MIN_IMAGE_DIMENSION]

/-- C1 (amended): when `SmartFilter._net` stays `None`, every image passing
the minimum-dimension gate on which the QR stage does not return early
(no decoded QR with area ratio above 0.40) is kept with reason
"model unavailable", whatever the text-box count or edge density. -/
theorem modelAbsent_keeps_nonDominant (w h : ℕ) (qr : QRDetection)
    (n : ℕ) (d : ℚ) (hw : MIN_IMAGE_DIMENSION ≤ w)
    (hh : MIN_IMAGE_DIMENSION ≤ h) (hq : isDominantQR qr = false) :
    is_valid_exam_paper w h qr false n d = (true, .modelUnavailable) := by
  obtain ⟨hp, r, hqr⟩ := qrStage_proceed_of_not_dominant qr hq
  unfold is_valid_exam_paper
  rw [if_neg (dim_gate_pass w h hw hh), hqr]
  simp

/-- Witness for C1 (amended) at a concrete input. -/
theorem modelAbsent_keeps_nonDominant_witness :
    is_valid_exam_paper 400 350 noQR false 3 0 = (true, .modelUnavailable) :=
  modelAbsent_keeps_nonDominant 400 350 noQR 3 0 (by decide) (by decide)
    (by decide)

/-- C2 (counterexample): an image with 10 text boxes but a dominant QR
(decoded, area ratio 1/2 > 0.40) is discarded by the early return on line
151 before text detection runs — refuting the claim that textBoxCount ≥ 8
always yields KEEP even when a dominant QR was detected. -/
theorem highText_keep_claim_counterexample :
    is_valid_exam_paper 400 400 bigQR true 10 0 = (false, .hugeQR (1/2)) := by
  norm_num [is_valid_exam_paper, qrStage, bigQR, MIN_IMAGE_DIMENSION]

/-- C2 (amended): only the prominent (non-dominant) QR signal is deferred
past rule 1: for every dimension-gate-passing image without a dominant QR,
textBoxCount ≥ 8 yields KEEP with the high-text-density reason, even when a
prominent QR was detected.  A dominant QR instead discards before rule 1. -/
theorem highText_keeps_nonDominant (w h : ℕ) (qr : QRDetection)
    (n : ℕ) (d : ℚ) (hw : MIN_IMAGE_DIMENSION ≤ w)
    (hh : MIN_IMAGE_DIMENSION ≤ h) (hq : isDominantQR qr = false)
    (hn : 8 ≤ n) :
    is_valid_exam_paper w h qr true n d = (true, .highTextDensity n) := by
  obtain ⟨hp, r, hqr⟩ := qrStage_proceed_of_not_dominant qr hq
  unfold is_valid_exam_paper
  rw [if_neg (dim_gate_pass w h hw hh), hqr]
  simp [hn]

/-- Witness for C2 (amended): a prominent (scannable, ratio 0.2) QR plus
nine text boxes is kept. -/
theorem highText_keeps_nonDominant_witness :
    is_valid_exam_paper 400 400 ⟨false, true, true, 1/5, false, 0⟩ true 9 0
      = (true, .highTextDensity 9) :=
  highText_keeps_nonDominant 400 400 ⟨false, true, true, 1/5, false, 0⟩ 9 0
    (by decide) (by decide) (by norm_num [isDominantQR]) (by decide)

/-- C4: boundary strictness of the cascade for a dimension-gate-passing
image with neither a dominant nor a prominent QR: 8 text boxes keep;
7 text boxes with aspect ratio exactly 1.3 keep (rule 3 discards only on
strict `<`); 0 text boxes with edge density exactly 0.05 discard (rule 4
keeps only on strict `>`). -/
theorem cascade_boundary_strictness (w h : ℕ) (qr : QRDetection) (d : ℚ)
    (hw : MIN_IMAGE_DIMENSION ≤ w) (hh : MIN_IMAGE_DIMENSION ≤ h)
    (hdom : isDominantQR qr = false) (hprom : hasProminentQR qr = false) :
    (is_valid_exam_paper w h qr true 8 d).1 = true ∧
    (aspectRatio w h = 13/10 → (is_valid_exam_paper w h qr true 7 d).1 = true) ∧
    (d = 5/100 → (is_valid_exam_paper w h qr true 0 d).1 = false) := by
  obtain ⟨r, hqr⟩ := qrStage_proceed_false qr hdom hprom
  have hgate := dim_gate_pass w h hw hh
  refine ⟨?_, fun har => ?_, fun hd => ?_⟩
  · unfold is_valid_exam_paper
    rw [if_neg hgate, hqr]
    simp
  · unfold is_valid_exam_paper
    rw [if_neg hgate, hqr]
    simp only [har]
    norm_num
  · unfold is_valid_exam_paper
    rw [if_neg hgate, hqr]
    subst hd
    norm_num
    split <;> simp

/-- Witness for C4 at 390×300 (aspect ratio exactly 13/10) and edge
density exactly 1/20. -/
theorem cascade_boundary_strictness_witness :
    (is_valid_exam_paper 390 300 noQR true 8 (5/100)).1 = true ∧
    (is_valid_exam_paper 390 300 noQR true 7 (5/100)).1 = true ∧
    (is_valid_exam_paper 390 300 noQR true 0 (5/100)).1 = false := by
  have h := cascade_boundary_strictness 390 300 noQR (5/100) (by decide)
    (by decide) (by decide) (by decide)
  exact ⟨h.1, h.2.1 (by norm_num [aspectRatio]), h.2.2 rfl⟩

/-- C10: under the minimum-dimension gate the guard `min(w, h) > 0` holds,
so the aspect-ratio computation takes the true-division branch with a
nonzero denominator and the 1.0 fallback is unreachable. -/
theorem aspect_ratio_no_div_by_zero (w h : ℕ)
    (hw : MIN_IMAGE_DIMENSION ≤ w) (hh : MIN_IMAGE_DIMENSION ≤ h) :
    0 < min w h ∧
    aspectRatio w h = (max w h : ℚ) / (min w h : ℚ) ∧
    ((min w h : ℚ) ≠ 0) := by
  have hmin : 0 < min w h := by
    have h300 : (300 : ℕ) ≤ w := hw
    have h300' : (300 : ℕ) ≤ h := hh
    omega
  refine ⟨hmin, ?_, ?_⟩
  · unfold aspectRatio
    rw [if_pos hmin]
  · exact_mod_cast Nat.pos_iff_ne_zero.mp hmin

/-- Witness for C10 at 400×300. -/
theorem aspect_ratio_no_div_by_zero_witness :
    0 < min 400 300 ∧
    aspectRatio 400 300 = ((max 400 300 : ℕ) : ℚ) / ((min 400 300 : ℕ) : ℚ) ∧
    (((min 400 300 : ℕ) : ℚ) ≠ 0) :=
  aspect_ratio_no_div_by_zero 400 300 (by decide) (by decide)

/-- The streaming loop aborts exactly when the running total first exceeds
the cap: it returns `none` after consuming `k + 1` chunks, where the first
`k + 1` chunks exceed the cap and the first `k` do not. -/
lemma accumulateChunks_abort (cap : ℕ) :
    ∀ (chunks : List ℕ) (acc : ℕ), acc ≤ cap → cap < acc + chunks.sum →
    ∃ k, accumulateChunks cap chunks acc = (none, k + 1) ∧
      cap < acc + (chunks.take (k + 1)).sum ∧
      acc + (chunks.take k).sum ≤ cap := by
  intro chunks
  induction chunks with
  | nil => intro acc hle hlt; simp at hlt; omega
  | cons c rest ih =>
    intro acc hle hlt
    by_cases hover : acc + c > cap
    · refine ⟨0, ?_, ?_, ?_⟩
      · unfold accumulateChunks
        rw [if_pos hover]
      · simpa using hover
      · simpa using hle
    · push_neg at hover
      have hlt' : cap < (acc + c) + rest.sum := by
        simp at hlt; omega
      obtain ⟨k, heq, hklt, hkle⟩ := ih (acc + c) hover hlt'
      refine ⟨k + 1, ?_, ?_, ?_⟩
      · unfold accumulateChunks
        rw [if_neg (by omega)]
        simp [heq]
      · simp only [List.take_succ_cons, List.sum_cons]
        omega
      · simp only [List.take_succ_cons, List.sum_cons]
        omega

/-- If the total body fits in the cap the loop consumes everything and
returns the total size. -/
lemma accumulateChunks_complete (cap : ℕ) :
    ∀ (chunks : List ℕ) (acc : ℕ), acc + chunks.sum ≤ cap →
    accumulateChunks cap chunks acc = (some (acc + chunks.sum), chunks.length) := by
  intro chunks
  induction chunks with
  | nil => intro acc hle; simp [accumulateChunks]
  | cons c rest ih =>
    intro acc hle
    simp only [List.sum_cons] at hle
    unfold accumulateChunks
    rw [if_neg (by omega)]
    rw [ih (acc + c) (by omega)]
    simp
    omega

/-- C5: the 10 MB size gate.  (a) A response whose declared
`Content-Length` exceeds the cap is rejected with zero body chunks
consumed, whatever else the response contains.  (b) If the declared length
is absent or does not exceed the cap but the streamed body does, the
download is rejected and the loop stops at exactly the first chunk whose
accumulation exceeds the cap. -/
theorem size_gate (url : String) (r : FetchResponse) :
    (∀ L, r.contentLength = some L → MAX_IMAGE_SIZE_BYTES < L →
      download_single_image url r = (none, 0)) ∧
    (r.statusOk = true → r.isHtmlOrSvg = false →
      declaredTooLarge r.contentLength = false →
      MAX_IMAGE_SIZE_BYTES < r.chunks.sum →
      (download_single_image url r).1 = none ∧
      ∃ k, (download_single_image url r).2 = k + 1 ∧
        MAX_IMAGE_SIZE_BYTES < (r.chunks.take (k + 1)).sum ∧
        (r.chunks.take k).sum ≤ MAX_IMAGE_SIZE_BYTES) := by
  constructor
  · intro L hL hgt
    have hdecl : declaredTooLarge r.contentLength = true := by
      unfold declaredTooLarge
      rw [hL]
      simpa using hgt
    unfold download_single_image
    repeat' split
    all_goals simp_all
  · intro hok hhtml hdecl hsum
    obtain ⟨k, heq, hklt, hkle⟩ :=
      accumulateChunks_abort MAX_IMAGE_SIZE_BYTES r.chunks 0
        (Nat.zero_le _) (by simpa using hsum)
    have hres : download_single_image url r = (none, k + 1) := by
      unfold download_single_image
      rw [if_neg (by simp [hok]), if_neg (by simp [hhtml]),
        if_neg (by simp [hdecl]), heq]
    rw [hres]
    exact ⟨rfl, k, rfl, by simpa using hklt, by simpa using hkle⟩

/-- Witness for C5: a response declaring one byte above the cap is
rejected without streaming, and a response with no length header whose
single chunk is one byte above the cap is aborted after that chunk. -/
theorem size_gate_witness :
    download_single_image "u"
      ⟨true, false, some (MAX_IMAGE_SIZE_BYTES + 1), [5, 5], .ok 400 400⟩
      = (none, 0) ∧
    ((download_single_image "u"
      ⟨true, false, none, [MAX_IMAGE_SIZE_BYTES + 1], .ok 400 400⟩).1 = none ∧
      ∃ k, (download_single_image "u"
          ⟨true, false, none, [MAX_IMAGE_SIZE_BYTES + 1], .ok 400 400⟩).2 = k + 1 ∧
        MAX_IMAGE_SIZE_BYTES <
          (([MAX_IMAGE_SIZE_BYTES + 1] : List ℕ).take (k + 1)).sum ∧
        (([MAX_IMAGE_SIZE_BYTES + 1] : List ℕ).take k).sum ≤ MAX_IMAGE_SIZE_BYTES) := by
  constructor
  · exact (size_gate "u"
      ⟨true, false, some (MAX_IMAGE_SIZE_BYTES + 1), [5, 5], .ok 400 400⟩).1
      (MAX_IMAGE_SIZE_BYTES + 1) rfl (by omega)
  · exact (size_gate "u"
      ⟨true, false, none, [MAX_IMAGE_SIZE_BYTES + 1], .ok 400 400⟩).2
      rfl rfl rfl (by simp)

/-- The empty-candidates early return changes nothing: `download_images`
equals its two filtering branches directly. -/
lemma download_images_branches (envs : List ImageEnv) (nl nf : Bool) :
    download_images envs nl nf =
      (if nf then (fetchCandidates envs).map (·.1)
       else ((fetchCandidates envs).filter
         fun ce => keptByFilter nl ce.1 ce.2).map (·.1)) := by
  unfold download_images
  by_cases hemp : (fetchCandidates envs).isEmpty
  · have hnil : fetchCandidates envs = [] := List.isEmpty_iff.mp hemp
    rw [if_pos hemp, hnil]
    cases nf <;> simp
  · rw [if_neg hemp]

/-- The no-filter branch is the order-preserving collection of successful
downloads. -/
lemma nofilter_kernel (nl : Bool) : ∀ (envs : List ImageEnv),
    (fetchCandidates envs).map (·.1) = downloadImagesSpec envs nl true := by
  intro envs
  induction envs with
  | nil => rfl
  | cons e rest ih =>
    unfold fetchCandidates downloadImagesSpec at *
    rw [List.filterMap_cons, List.filterMap_cons]
    cases hd : (download_single_image e.url e.resp).1 with
    | none => simpa using ih
    | some c => simpa using ih

/-- The filtering branch is the order-preserving collection of successful
downloads that the classifier keeps. -/
lemma filter_kernel (nl : Bool) : ∀ (envs : List ImageEnv),
    ((fetchCandidates envs).filter
      fun ce => keptByFilter nl ce.1 ce.2).map (·.1)
      = downloadImagesSpec envs nl false := by
  intro envs
  induction envs with
  | nil => rfl
  | cons e rest ih =>
    unfold fetchCandidates downloadImagesSpec at *
    rw [List.filterMap_cons, List.filterMap_cons]
    cases hd : (download_single_image e.url e.resp).1 with
    | none => simpa using ih
    | some c =>
      by_cases hk : keptByFilter nl c e
      · simp [List.filter_cons, hk, ih]
      · simp [List.filter_cons, hk, ih]

/-- `download_images` refines the specification's description of its
result. -/
lemma download_images_eq (envs : List ImageEnv) (nl nf : Bool) :
    download_images envs nl nf = downloadImagesSpec envs nl nf := by
  rw [download_images_branches]
  cases nf
  · simpa using filter_kernel nl envs
  · simpa using nofilter_kernel nl envs

/-- C7: the images returned by `download_images` are exactly those whose
fetch/decode succeeded and which (unless `no_filter`) the classifier kept,
in the original relative order of the input list; failed or filtered items
are simply absent (`downloadImagesSpec` is a `filterMap`, so one item's
failure never affects the others). -/
theorem download_images_exactly_kept (envs : List ImageEnv) (nl nf : Bool) :
    download_images envs nl nf = downloadImagesSpec envs nl nf :=
  download_images_eq envs nl nf

/-- Any candidate produced by `download_single_image` passed the
minimum-dimension gate on line 437-439. -/
lemma download_single_image_dims (url : String) (r : FetchResponse)
    (c : Candidate) (h : (download_single_image url r).1 = some c) :
    MIN_IMAGE_DIMENSION ≤ c.w ∧ MIN_IMAGE_DIMENSION ≤ c.h := by
  unfold download_single_image at h
  repeat' split at h
  all_goals try simp_all
  all_goals (cases h; simp_all)

/-- C6: the minimum-dimension gate holds in both modes: (a) a response
decoding to an image with width or height below 300 is rejected by
`download_single_image`; (b) consequently every candidate returned by
`download_images` — with or without smart filtering — has width ≥ 300 and
height ≥ 300. -/
theorem dimension_gate_both_modes (envs : List ImageEnv) (nl nf : Bool)
    (url : String) (r : FetchResponse) (w h : ℕ) :
    (r.decode = .ok w h →
      (w < MIN_IMAGE_DIMENSION ∨ h < MIN_IMAGE_DIMENSION) →
      (download_single_image url r).1 = none) ∧
    (∀ c ∈ download_images envs nl nf,
      MIN_IMAGE_DIMENSION ≤ c.w ∧ MIN_IMAGE_DIMENSION ≤ c.h) := by
  constructor
  · intro hdec hsmall
    unfold download_single_image
    repeat' split
    all_goals simp_all
  · intro c hc
    rw [download_images_eq] at hc
    unfold downloadImagesSpec at hc
    obtain ⟨e, _, hf⟩ := List.mem_filterMap.mp hc
    split at hf
    · simp at hf
    · rename_i c' hd
      split at hf
      · obtain rfl := Option.some.inj hf
        exact download_single_image_dims e.url e.resp c' hd
      · simp at hf

/-- Witness for C6: a 100×400 decode is rejected, and the single kept
candidate of a one-element batch has both dimensions ≥ 300. -/
theorem dimension_gate_both_modes_witness :
    ((download_single_image "u"
      ⟨true, false, none, [10], .ok 100 400⟩).1 = none) ∧
    (MIN_IMAGE_DIMENSION ≤ (⟨400, 350, 100, "u"⟩ : Candidate).w ∧
     MIN_IMAGE_DIMENSION ≤ (⟨400, 350, 100, "u"⟩ : Candidate).h) := by
  have h := dimension_gate_both_modes
    [⟨"u", ⟨true, false, none, [100], .ok 400 350⟩, noQR, 9, 0⟩] true false
    "u" ⟨true, false, none, [10], .ok 100 400⟩ 100 400
  refine ⟨h.1 rfl (by norm_num [MIN_IMAGE_DIMENSION]), ?_⟩
  exact h.2 ⟨400, 350, 100, "u"⟩ (by decide)

/-! ### URL canonicalization lemmas -/

/-- `takeWhile` walks through a block whose elements all satisfy the
predicate. -/
lemma takeWhile_all_append (p : Char → Bool) (l₁ l₂ : List Char)
    (h : ∀ c ∈ l₁, p c = true) :
    (l₁ ++ l₂).takeWhile p = l₁ ++ l₂.takeWhile p := by
  induction l₁ with
  | nil => simp
  | cons a t ih =>
    rw [List.cons_append, List.takeWhile_cons, if_pos (h a (by simp))]
    rw [ih fun c hc => h c (by simp [hc])]
    rfl

/-- `dropWhile` drops a block whose elements all satisfy the predicate. -/
lemma dropWhile_all_append (p : Char → Bool) (l₁ l₂ : List Char)
    (h : ∀ c ∈ l₁, p c = true) :
    (l₁ ++ l₂).dropWhile p = l₂.dropWhile p := by
  induction l₁ with
  | nil => simp
  | cons a t ih =>
    rw [List.cons_append, List.dropWhile_cons, if_pos (h a (by simp))]
    exact ih fun c hc => h c (by simp [hc])

/-- `takeWhile` keeps a list all of whose elements satisfy the
predicate. -/
lemma takeWhile_all (p : Char → Bool) (l : List Char)
    (h : ∀ c ∈ l, p c = true) : l.takeWhile p = l := by
  have h2 := takeWhile_all_append p l [] h
  simpa using h2

/-- The first element surviving `dropWhile` falsifies the predicate. -/
lemma dropWhile_head_false (p : Char → Bool) :
    ∀ (l : List Char) (d : Char) (ds : List Char),
      l.dropWhile p = d :: ds → p d = false := by
  intro l
  induction l with
  | nil => intro d ds h; simp at h
  | cons a t ih =>
    intro d ds h
    rw [List.dropWhile_cons] at h
    by_cases hpa : p a = true
    · rw [if_pos hpa] at h
      exact ih d ds h
    · rw [if_neg hpa] at h
      obtain ⟨rfl, -⟩ := List.cons.inj h
      simpa using hpa

/-- Splitting at the last `/`: when `s` contains a slash,
`s = beforeLastSlash s ++ '/' :: lastSeg s` and the last segment is
slash-free — the `rsplit("/", 1)` decomposition. -/
lemma splitLastSlash (s : List Char) (hmem : '/' ∈ s) :
    s = beforeLastSlash s ++ '/' :: lastSeg s ∧ '/' ∉ lastSeg s := by
  have hrev : '/' ∈ s.reverse := by simpa using hmem
  have hdne : s.reverse.dropWhile notSlash ≠ [] := by
    intro hcontra
    have hall := List.dropWhile_eq_nil_iff.mp hcontra '/' hrev
    simp [notSlash] at hall
  obtain ⟨d, ds, heq⟩ := List.exists_cons_of_ne_nil hdne
  have hd : d = '/' := by
    have hfd := dropWhile_head_false notSlash s.reverse d ds heq
    simpa [notSlash] using hfd
  subst hd
  have hsplit : s.reverse.takeWhile notSlash ++ '/' :: ds = s.reverse := by
    rw [← heq]
    exact List.takeWhile_append_dropWhile _ _
  constructor
  · unfold beforeLastSlash lastSeg
    rw [heq]
    conv_lhs => rw [← List.reverse_reverse s, ← hsplit]
    simp
  · intro hin
    unfold lastSeg at hin
    rw [List.mem_reverse] at hin
    have := List.mem_takeWhile_imp hin
    simp [notSlash] at this

/-- `lastSeg`/`beforeLastSlash` on a list of the shape `A ++ '/' :: L`
with `L` slash-free. -/
lemma lastSeg_append_slash (A L : List Char) (h : '/' ∉ L) :
    lastSeg (A ++ '/' :: L) = L ∧ beforeLastSlash (A ++ '/' :: L) = A := by
  have hall : ∀ c ∈ L.reverse, notSlash c = true := by
    intro c hc
    rw [List.mem_reverse] at hc
    simp only [notSlash, decide_eq_true_eq, ne_eq]
    intro hcontra
    exact h (hcontra ▸ hc)
  have hns : notSlash '/' = false := by simp [notSlash]
  have hrev : (A ++ '/' :: L).reverse = L.reverse ++ '/' :: A.reverse := by
    simp
  constructor
  · unfold lastSeg
    rw [hrev, takeWhile_all_append _ _ _ hall, List.takeWhile_cons, if_neg]
    · simp
    · simp [hns]
  · unfold beforeLastSlash
    rw [hrev, dropWhile_all_append _ _ _ hall, List.dropWhile_cons, if_neg]
    · simp
    · simp [hns]

/-- What a successful `capAt` returns: the capture starts with the
literal, contains no `?`, and strictly extends the literal. -/
lemma capAt_spec (s cap : List Char) (h : capAt s = some cap) :
    mmbizLit <+: cap ∧ (∀ c ∈ cap, c ≠ '?') ∧
    mmbizLit.length < cap.length := by
  unfold capAt at h
  split at h
  · split at h
    · simp at h
    · rename_i hrun
      obtain rfl := Option.some.inj h
      refine ⟨⟨_, rfl⟩, ?_, ?_⟩
      · have hmm : ∀ c ∈ mmbizLit, c ≠ '?' := by decide
        intro c hc
        rcases List.mem_append.mp hc with hm | hm
        · exact hmm c hm
        · have := List.mem_takeWhile_imp hm
          simpa [notQmark] using this
      · rw [List.length_append]
        have := List.length_pos.mpr hrun
        omega
  · simp at h

/-- What a successful `findCapture` returns (leftmost `capAt` success). -/
lemma findCapture_spec (s cap : List Char) (h : findCapture s = some cap) :
    mmbizLit <+: cap ∧ (∀ c ∈ cap, c ≠ '?') ∧
    mmbizLit.length < cap.length := by
  induction s with
  | nil => simp [findCapture] at h
  | cons a t ih =>
    unfold findCapture at h
    split at h
    · rename_i cap' hcap
      obtain rfl : cap' = cap := by
        simpa using h
      exact capAt_spec _ _ hcap
    · exact ih h

/-- `findCapture` fires on any nonempty list whose head position already
matches. -/
lemma findCapture_of_capAt (s cap : List Char) (hne : s ≠ [])
    (h : capAt s = some cap) : findCapture s = some cap := by
  obtain ⟨a, t, rfl⟩ := List.exists_cons_of_ne_nil hne
  unfold findCapture
  rw [h]

/-- `normalizeList` unfolded on a failed search. -/
lemma normalizeList_of_findCapture_none (s : List Char)
    (h : findCapture s = none) : normalizeList s = s := by
  unfold normalizeList
  rw [h]

/-- `normalizeList` unfolded on a successful search. -/
lemma normalizeList_of_findCapture (s base : List Char)
    (h : findCapture s = some base) :
    normalizeList s =
      if base.elem '/' then
        if pyIsdigit (lastSeg base) then beforeLastSlash base ++ ['/', '0']
        else s
      else s := by
  unfold normalizeList
  rw [h]

/-- Every output of `normalizeList` is either the input unchanged or of
the shape `pre ++ "/0"`, where `pre ++ "/"` extends the mmbiz literal and
`pre` is free of `?`. -/
lemma normalizeList_cases (s : List Char) :
    normalizeList s = s ∨
    ∃ pre, normalizeList s = pre ++ ['/', '0'] ∧
      mmbizLit <+: pre ++ ['/'] ∧ (∀ c ∈ pre, c ≠ '?') := by
  cases hfc : findCapture s with
  | none => exact Or.inl (normalizeList_of_findCapture_none s hfc)
  | some base =>
    rw [normalizeList_of_findCapture s base hfc]
    by_cases hel : base.elem '/'
    · rw [if_pos hel]
      by_cases hdig : pyIsdigit (lastSeg base)
      · rw [if_pos hdig]
        right
        obtain ⟨hpref, hnoq, _⟩ := findCapture_spec s base hfc
        have hmem : '/' ∈ base := List.elem_iff.mp hel
        obtain ⟨hdecomp, hnotin⟩ := splitLastSlash base hmem
        have hbase : (beforeLastSlash base ++ ['/']) ++ lastSeg base
            = base := by
          conv_rhs => rw [hdecomp]
          simp
        refine ⟨beforeLastSlash base, rfl, ?_, ?_⟩
        · have h1 : beforeLastSlash base ++ ['/'] <+: base :=
            ⟨lastSeg base, hbase⟩
          rcases List.prefix_or_prefix_of_prefix hpref h1 with hc1 | hc2
          · exact hc1
          · obtain ⟨t, ht⟩ := hc2
            cases t with
            | nil =>
              rw [List.append_nil] at ht
              rw [ht]
            | cons a t' =>
              exfalso
              have hts : a :: t' <+: lastSeg base := by
                have hx : (beforeLastSlash base ++ ['/']) ++ a :: t' <+:
                    (beforeLastSlash base ++ ['/']) ++ lastSeg base := by
                  rw [ht, hbase]
                  exact hpref
                exact (List.prefix_append_right_inj _).mp hx
              have hg : (a :: t').getLast? = some '/' := by
                have h2 := List.getLast?_append_cons
                  (beforeLastSlash base ++ ['/']) a t'
                rw [ht] at h2
                rw [← h2]
                decide
              exact hnotin (hts.subset (List.mem_of_mem_getLast? hg))
        · intro c hc
          apply hnoq
          rw [hdecomp]
          exact List.mem_append.mpr (Or.inl hc)
      · rw [if_neg hdig]
        exact Or.inl rfl
    · rw [if_neg hel]
      exact Or.inl rfl

/-- Lists of the shape `pre ++ "/0"` with `pre ++ "/"` extending the mmbiz
literal and `pre` free of `?` are fixed points of `normalizeList`. -/
lemma normalizeList_fixed (pre : List Char)
    (hpre : mmbizLit <+: pre ++ ['/']) (hq : ∀ c ∈ pre, c ≠ '?') :
    normalizeList (pre ++ ['/', '0']) = pre ++ ['/', '0'] := by
  have hshape : pre ++ ['/', '0'] = (pre ++ ['/']) ++ ['0'] := by simp
  have hpr : mmbizLit <+: pre ++ ['/', '0'] := by
    rw [hshape]
    exact hpre.trans ⟨['0'], rfl⟩
  have hnoq : ∀ c ∈ pre ++ ['/', '0'], c ≠ '?' := by
    intro c hc
    rcases List.mem_append.mp hc with hm | hm
    · exact hq c hm
    · simp only [List.mem_cons, List.mem_singleton] at hm
      rcases hm with rfl | hm
      · decide
      · rcases hm with rfl | hm
        · decide
        · simp at hm
  have hlen : mmbizLit.length < (pre ++ ['/', '0']).length := by
    have h1 := hpre.length_le
    simp only [List.length_append, List.length_cons, List.length_singleton]
      at h1 ⊢
    omega
  have hdropeq : mmbizLit ++ (pre ++ ['/', '0']).drop mmbizLit.length
      = pre ++ ['/', '0'] := List.prefix_iff_eq_append.mp hpr
  have hrun : ((pre ++ ['/', '0']).drop mmbizLit.length).takeWhile notQmark
      = (pre ++ ['/', '0']).drop mmbizLit.length := by
    apply takeWhile_all
    intro c hc
    have hcm : c ∈ pre ++ ['/', '0'] := List.mem_of_mem_drop hc
    simp [notQmark, hnoq c hcm]
  have hrun_ne : (pre ++ ['/', '0']).drop mmbizLit.length ≠ [] := by
    intro hcontra
    rw [List.drop_eq_nil_iff] at hcontra
    omega
  have hcap : capAt (pre ++ ['/', '0']) = some (pre ++ ['/', '0']) := by
    unfold capAt
    rw [if_pos (List.isPrefixOf_iff_prefix.mpr hpr), hrun,
      if_neg hrun_ne, hdropeq]
  have hne : pre ++ ['/', '0'] ≠ [] := by simp
  have hfind : findCapture (pre ++ ['/', '0']) = some (pre ++ ['/', '0']) :=
    findCapture_of_capAt _ _ hne hcap
  have hls := lastSeg_append_slash pre ['0'] (by decide)
  rw [normalizeList_of_findCapture _ _ hfind,
    if_pos (List.elem_iff.mpr (by simp)), hls.1, if_pos (by decide), hls.2]

/-- C9: `normalize_image_url` is idempotent — the rewritten sentinel
segment `0` is itself numeric and maps back to `0`. -/
theorem normalize_image_url_idempotent (s : String) :
    normalize_image_url (normalize_image_url s) = normalize_image_url s := by
  unfold normalize_image_url
  rcases normalizeList_cases s.data with h | ⟨pre, h, hpre, hq⟩
  · simp only [h]
  · simp only [h]
    rw [normalizeList_fixed pre hpre hq]

/-- The computation of `normalize_image_url` on a URL of the canonical
mmbiz shape `https://mmbiz.qpic.cn/<mid>/<digits>?<query>`. -/
lemma normalizeList_mmbiz (mid digits query : List Char)
    (hm : ∀ c ∈ mid, c ≠ '?') (hdne : digits ≠ [])
    (hdig : ∀ c ∈ digits, c.isDigit) :
    normalizeList (mmbizLit ++ (mid ++ '/' :: digits ++ '?' :: query))
      = (mmbizLit ++ mid) ++ ['/', '0'] := by
  have hslashfree : '/' ∉ digits := by
    intro hin
    have := hdig '/' hin
    simp at this
  have hallrun : ∀ c ∈ mid ++ '/' :: digits, notQmark c = true := by
    intro c hc
    rcases List.mem_append.mp hc with hmm | hmm
    · simp [notQmark, hm c hmm]
    · simp only [List.mem_cons] at hmm
      rcases hmm with rfl | hmm
      · decide
      · have := hdig c hmm
        simp only [notQmark, decide_eq_true_eq, ne_eq]
        intro hcontra
        rw [hcontra] at this
        simp at this
  have htail : (mmbizLit ++ (mid ++ '/' :: digits ++ '?' :: query)).drop
      mmbizLit.length = mid ++ '/' :: digits ++ '?' :: query :=
    List.drop_left _ _
  have hrun : ((mid ++ '/' :: digits) ++ '?' :: query).takeWhile notQmark
      = mid ++ '/' :: digits := by
    rw [takeWhile_all_append _ _ _ hallrun, List.takeWhile_cons,
      if_neg (by simp [notQmark])]
    simp
  have hcap : capAt (mmbizLit ++ (mid ++ '/' :: digits ++ '?' :: query))
      = some (mmbizLit ++ (mid ++ '/' :: digits)) := by
    unfold capAt
    rw [if_pos (List.isPrefixOf_iff_prefix.mpr ⟨_, rfl⟩), htail]
    rw [show mid ++ '/' :: digits ++ '?' :: query
        = (mid ++ '/' :: digits) ++ '?' :: query by simp]
    rw [hrun, if_neg (by simp)]
  have hfind := findCapture_of_capAt _ _ (by simp) hcap
  have hshape : mmbizLit ++ (mid ++ '/' :: digits)
      = (mmbizLit ++ mid) ++ '/' :: digits := by simp
  have hls := lastSeg_append_slash (mmbizLit ++ mid) digits hslashfree
  have hdigit : pyIsdigit digits = true := by
    unfold pyIsdigit
    rw [Bool.and_eq_true]
    refine ⟨by simp [hdne], ?_⟩
    rw [List.all_eq_true]
    intro c hc
    exact hdig c hc
  rw [normalizeList_of_findCapture _ _ hfind, hshape,
    if_pos (List.elem_iff.mpr (by simp)), hls.1, if_pos hdigit, hls.2]

/-- C3 (counterexample): canonicalization is not applied to every input
URL.  A non-mmbiz URL keeps its query string and numeric final segment
unchanged, and two non-mmbiz URLs differing only by a trailing numeric
segment map to different strings. -/
theorem normalize_claim_counterexample :
    normalize_image_url "https://example.com/img/123?x=1"
      = "https://example.com/img/123?x=1" ∧
    normalize_image_url "https://a.com/1"
      ≠ normalize_image_url "https://a.com/2" := by
  constructor
  · decide
  · decide

/-- C3 (amended): for URLs matching the pattern — containing
`https://mmbiz.qpic.cn/` at the start, a `?`-free middle, and a purely
numeric final path segment before the query string — `normalize_image_url`
strips the query and rewrites the numeric segment to the sentinel `0`;
consequently two such URLs differing only in the numeric segment and the
query map to the same ImageURL. -/
theorem normalize_canonicalizes_mmbiz (mid d1 d2 q1 q2 : List Char)
    (hm : ∀ c ∈ mid, c ≠ '?')
    (hd1 : d1 ≠ []) (hdig1 : ∀ c ∈ d1, c.isDigit)
    (hd2 : d2 ≠ []) (hdig2 : ∀ c ∈ d2, c.isDigit) :
    normalize_image_url ⟨mmbizLit ++ (mid ++ '/' :: d1 ++ '?' :: q1)⟩
      = ⟨(mmbizLit ++ mid) ++ ['/', '0']⟩ ∧
    normalize_image_url ⟨mmbizLit ++ (mid ++ '/' :: d1 ++ '?' :: q1)⟩
      = normalize_image_url ⟨mmbizLit ++ (mid ++ '/' :: d2 ++ '?' :: q2)⟩ := by
  have h1 := normalizeList_mmbiz mid d1 q1 hm hd1 hdig1
  have h2 := normalizeList_mmbiz mid d2 q2 hm hd2 hdig2
  unfold normalize_image_url
  constructor
  · exact congrArg String.mk h1
  · exact congrArg String.mk (h1.trans h2.symm)

/-- Witness for C3 (amended) on two concrete mmbiz URLs with resolution
segments 640 and 123. -/
theorem normalize_canonicalizes_mmbiz_witness :
    normalize_image_url
        ⟨mmbizLit ++ (['a'] ++ '/' :: "640".data ++ '?' :: "x=1".data)⟩
      = ⟨(mmbizLit ++ ['a']) ++ ['/', '0']⟩ ∧
    normalize_image_url
        ⟨mmbizLit ++ (['a'] ++ '/' :: "640".data ++ '?' :: "x=1".data)⟩
      = normalize_image_url
        ⟨mmbizLit ++ (['a'] ++ '/' :: "123".data ++ '?' :: "y=2".data)⟩ :=
  normalize_canonicalizes_mmbiz ['a'] "640".data "123".data "x=1".data
    "y=2".data (by decide) (by decide) (by decide) (by decide) (by decide)

end Wechat2Pdf
